import Mathlib

/-!
Verification of the Markdown structural parser and id-assignment scheme of the
markdown-to-HTML-with-options repository.  The definitions below are shallow
embeddings of the functions in `src/utils/markdownUtils.ts` and of
`getUniqueId` in `src/components/MarkdownRenderer.tsx`.  JavaScript strings are
modelled as `List Char` / `String`; the regular expressions used by the source
are translated into explicit, executable scanners whose derivation from the
regex semantics is documented at each definition.
-/

set_option maxHeartbeats 1000000

namespace MdOpts

/-- Characters matched by the JavaScript regex class `\s` (and removed by
`String.prototype.trim`): tab, LF, VT, FF, CR, space, NBSP, U+1680,
U+2000–U+200A, line separator, paragraph separator, U+202F, U+205F,
ideographic space, and the BOM U+FEFF. -/
def jsWs (c : Char) : Bool :=
  let n := c.toNat
  n == 9 || n == 10 || n == 11 || n == 12 || n == 13 || n == 32 ||
  n == 0xA0 || n == 0x1680 || (0x2000 ≤ n && n ≤ 0x200A) ||
  n == 0x2028 || n == 0x2029 || n == 0x202F || n == 0x205F ||
  n == 0x3000 || n == 0xFEFF

/-- Characters matched by the JavaScript regex `.` (dotAll off): every
character except the line terminators LF, CR, U+2028 and U+2029. -/
def dotChar (c : Char) : Bool :=
  let n := c.toNat
  !(n == 10 || n == 13 || n == 0x2028 || n == 0x2029)

/-- Characters matched by the JavaScript regex class `\w`:
ASCII letters, digits and underscore. -/
def wordChar (c : Char) : Bool :=
  let n := c.toNat
  (97 ≤ n && n ≤ 122) || (65 ≤ n && n ≤ 90) || (48 ≤ n && n ≤ 57) || n == 95

/-- Characters kept by the final `slugify` step
`.replace(/[^\w\-\u0080-￿]+/g, '')`.  JavaScript regexes act on UTF-16
code units and both surrogates of an astral character lie in `0080–FFFF`, so
the replacement deletes exactly the ASCII code units that are neither word
characters nor a hyphen; on scalar values that is: keep word characters,
`-`, and everything at or above U+0080. -/
def slugKeep (c : Char) : Bool :=
  wordChar c || c.toNat == 45 || 128 ≤ c.toNat

/-- One pass of `.replace(/\s+/g, '-')`: each maximal run of `\s` characters
becomes a single hyphen.  The boolean records whether the previous character
belonged to a whitespace run already replaced. -/
def collapseWsAux : Bool → List Char → List Char
  | _, [] => []
  | inWs, c :: rest =>
    if jsWs c then
      if inWs then collapseWsAux true rest
      else '-' :: collapseWsAux true rest
    else c :: collapseWsAux false rest

def collapseWs (cs : List Char) : List Char :=
  collapseWsAux false cs

/-- `String.prototype.trim`: drop leading and trailing JS whitespace. -/
def trimL (cs : List Char) : List Char :=
  ((cs.dropWhile jsWs).reverse.dropWhile jsWs).reverse

def trimS (s : String) : String :=
  String.mk (trimL s.data)

/-- `slugify` from `src/utils/markdownUtils.ts`:
`text.toLowerCase().trim().replace(/\s+/g,'-').replace(/[^\w\-\u0080-￿]+/g,'')`.
`toLowerCase` is modelled by `Char.toLower` (the ASCII simple case mapping);
the JS full Unicode mapping agrees with it on all ASCII input. -/
def slugifyL (cs : List Char) : List Char :=
  (collapseWs (trimL (cs.map Char.toLower))).filter slugKeep

def slugify (text : String) : String :=
  String.mk (slugifyL text.data)

/- ### Auxiliary lemmas about the slugify pipeline -/

theorem toLower_of_not_upper (c : Char) (h : ¬(65 ≤ c.toNat ∧ c.toNat ≤ 90)) :
    Char.toLower c = c := by
  unfold Char.toLower
  rw [if_neg]
  intro hc
  exact h ⟨hc.1, hc.2⟩

theorem ofNat_shift_not_upper (n : Nat) (h1 : 65 ≤ n) (h2 : n ≤ 90) :
    ¬(65 ≤ (Char.ofNat (n + 32)).toNat ∧ (Char.ofNat (n + 32)).toNat ≤ 90) := by
  interval_cases n <;> decide

theorem toLower_not_upper (c : Char) :
    ¬(65 ≤ (Char.toLower c).toNat ∧ (Char.toLower c).toNat ≤ 90) := by
  unfold Char.toLower
  by_cases h : c.toNat ≥ 65 ∧ c.toNat ≤ 90
  · rw [if_pos h]
    exact ofNat_shift_not_upper c.toNat h.1 h.2
  · rw [if_neg h]
    intro hc
    exact h ⟨hc.1, hc.2⟩

theorem mem_map_toLower_not_upper {c : Char} {cs : List Char}
    (h : c ∈ cs.map Char.toLower) : ¬(65 ≤ c.toNat ∧ c.toNat ≤ 90) := by
  rcases List.mem_map.1 h with ⟨d, _, rfl⟩
  exact toLower_not_upper d

theorem dropWhile_eq_self_of_all {p : Char → Bool} {cs : List Char}
    (h : ∀ c ∈ cs, p c = false) : cs.dropWhile p = cs := by
  cases cs with
  | nil => rfl
  | cons c rest =>
    rw [List.dropWhile_cons, h c (List.mem_cons_self c rest)]
    simp

theorem trimL_eq_self_of_no_ws {cs : List Char}
    (h : ∀ c ∈ cs, jsWs c = false) : trimL cs = cs := by
  unfold trimL
  rw [dropWhile_eq_self_of_all h]
  rw [dropWhile_eq_self_of_all (fun c hc => h c (List.mem_reverse.1 hc))]
  exact List.reverse_reverse cs

theorem mem_trimL {c : Char} {cs : List Char} (h : c ∈ trimL cs) : c ∈ cs := by
  unfold trimL at h
  rw [List.mem_reverse] at h
  have h2 := (List.dropWhile_sublist jsWs).mem h
  rw [List.mem_reverse] at h2
  exact (List.dropWhile_sublist jsWs).mem h2

theorem collapseWsAux_eq_self_of_no_ws {cs : List Char}
    (h : ∀ c ∈ cs, jsWs c = false) : ∀ b, collapseWsAux b cs = cs := by
  induction cs with
  | nil => intro b; rfl
  | cons c rest ih =>
    intro b
    unfold collapseWsAux
    rw [h c (List.mem_cons_self c rest)]
    simp only [Bool.false_eq_true, if_false]
    rw [ih (fun d hd => h d (List.mem_cons_of_mem c hd))]

theorem mem_collapseWsAux {c : Char} :
    ∀ {b : Bool} {cs : List Char}, c ∈ collapseWsAux b cs → c = '-' ∨ c ∈ cs := by
  intro b cs
  induction cs generalizing b with
  | nil => intro h; exact absurd h (List.not_mem_nil c)
  | cons d rest ih =>
    intro h
    unfold collapseWsAux at h
    by_cases hd : jsWs d
    · rw [hd] at h
      simp only [if_true] at h
      cases b with
      | true =>
        rcases ih h with h' | h'
        · exact Or.inl h'
        · exact Or.inr (List.mem_cons_of_mem d h')
      | false =>
        rcases List.mem_cons.1 h with h' | h'
        · exact Or.inl h'
        · rcases ih h' with h'' | h''
          · exact Or.inl h''
          · exact Or.inr (List.mem_cons_of_mem d h'')
    · rw [Bool.of_not_eq_true hd] at h
      simp only [Bool.false_eq_true, if_false] at h
      rcases List.mem_cons.1 h with h' | h'
      · exact Or.inr (h' ▸ List.mem_cons_self d rest)
      · rcases ih h' with h'' | h''
        · exact Or.inl h''
        · exact Or.inr (List.mem_cons_of_mem d h'')

theorem mem_collapseWsAux_not_ws {c : Char} :
    ∀ {b : Bool} {cs : List Char}, c ∈ collapseWsAux b cs → jsWs c = false := by
  intro b cs
  induction cs generalizing b with
  | nil => intro h; exact absurd h (List.not_mem_nil c)
  | cons d rest ih =>
    intro h
    unfold collapseWsAux at h
    by_cases hd : jsWs d
    · rw [hd] at h
      simp only [if_true] at h
      cases b with
      | true => exact ih h
      | false =>
        rcases List.mem_cons.1 h with h' | h'
        · rw [h']; decide
        · exact ih h'
    · rw [Bool.of_not_eq_true hd] at h
      simp only [Bool.false_eq_true, if_false] at h
      rcases List.mem_cons.1 h with h' | h'
      · rw [h']; exact Bool.of_not_eq_true hd
      · exact ih h'

theorem map_id_of_fix {f : Char → Char} {l : List Char}
    (h : ∀ c ∈ l, f c = c) : l.map f = l := by
  induction l with
  | nil => rfl
  | cons c rest ih =>
    simp only [List.map_cons]
    rw [h c (List.mem_cons_self c rest), ih (fun d hd => h d (List.mem_cons_of_mem c hd))]

theorem mem_slugifyL_keep {c : Char} {cs : List Char} (h : c ∈ slugifyL cs) :
    slugKeep c = true := by
  exact List.of_mem_filter h

theorem mem_slugifyL_not_ws {c : Char} {cs : List Char} (h : c ∈ slugifyL cs) :
    jsWs c = false := by
  have h1 : c ∈ collapseWs (trimL (cs.map Char.toLower)) := List.mem_of_mem_filter h
  exact mem_collapseWsAux_not_ws h1

theorem mem_slugifyL_not_upper {c : Char} {cs : List Char} (h : c ∈ slugifyL cs) :
    ¬(65 ≤ c.toNat ∧ c.toNat ≤ 90) := by
  have h1 : c ∈ collapseWs (trimL (cs.map Char.toLower)) := List.mem_of_mem_filter h
  rcases mem_collapseWsAux h1 with h2 | h2
  · rw [h2]; decide
  · exact mem_map_toLower_not_upper (mem_trimL h2)

theorem slugifyL_idem (cs : List Char) : slugifyL (slugifyL cs) = slugifyL cs := by
  have hlow : (slugifyL cs).map Char.toLower = slugifyL cs :=
    map_id_of_fix (fun c hc => toLower_of_not_upper c (mem_slugifyL_not_upper hc))
  have hnows : ∀ c ∈ slugifyL cs, jsWs c = false :=
    fun c hc => mem_slugifyL_not_ws hc
  conv_lhs => rw [slugifyL, hlow]
  rw [trimL_eq_self_of_no_ws hnows]
  rw [show collapseWs (slugifyL cs) = slugifyL cs from
    collapseWsAux_eq_self_of_no_ws hnows false]
  exact List.filter_eq_self.2 (fun c hc => mem_slugifyL_keep hc)

/-- C8: slugify is idempotent — re-applying slugify to its own output changes
nothing. -/
theorem slugify_idempotent (t : String) : slugify (slugify t) = slugify t := by
  unfold slugify
  exact congrArg String.mk (slugifyL_idem t.data)

/- ### cleanMarkdown: the four sequential regex replacements -/

/-- One attempt of `/\[([^\]]+)\]\([^)]+\)/` at the current position.  Both
character classes are complements of the following delimiter, so the greedy
runs are the unique maximal runs and the regex engine never backtracks: the
match succeeds exactly when a nonempty run of non-`]` characters is enclosed
in `[...]` immediately followed by `(`, a nonempty run of non-`)` characters,
and `)`.  Returns the capture and the matched length. -/
def linkMatch (cs : List Char) : Option (List Char × Nat) :=
  match cs with
  | '[' :: cs1 =>
    let t := cs1.takeWhile (fun c => !(c == ']'))
    if t.isEmpty then none else
    match cs1.drop t.length with
    | ']' :: '(' :: cs2 =>
      let u := cs2.takeWhile (fun c => !(c == ')'))
      if u.isEmpty then none else
      match cs2.drop u.length with
      | ')' :: _ => some (t, 1 + t.length + 2 + u.length + 1)
      | _ => none
    | _ => none
  | _ => none

/-- One attempt of `/!\[([^\]]*)\]\([^)]+\)/` at the current position
(the alt text may be empty). -/
def imageMatch (cs : List Char) : Option (List Char × Nat) :=
  match cs with
  | '!' :: '[' :: cs1 =>
    let t := cs1.takeWhile (fun c => !(c == ']'))
    match cs1.drop t.length with
    | ']' :: '(' :: cs2 =>
      let u := cs2.takeWhile (fun c => !(c == ')'))
      if u.isEmpty then none else
      match cs2.drop u.length with
      | ')' :: _ => some (t, 2 + t.length + 2 + u.length + 1)
      | _ => none
    | _ => none
  | _ => none

def backtickChar : Char := Char.ofNat 96

/-- One attempt of the inline-code regex (backtick, a nonempty run of
non-backtick characters, backtick) at the current position. -/
def codeMatch (cs : List Char) : Option (List Char × Nat) :=
  match cs with
  | c :: cs1 =>
    if c == backtickChar then
      let t := cs1.takeWhile (fun d => !(d == backtickChar))
      if t.isEmpty then none else
      match cs1.drop t.length with
      | d :: _ => if d == backtickChar then some (t, t.length + 2) else none
      | _ => none
    else none
  | _ => none

def emphChar (c : Char) : Bool :=
  c == '*' || c == '_'

/-- One attempt of `/[*_]{1,3}([^*_]+)[*_]{1,3}/` at the current position.
Let `l` be the maximal run of `*`/`_` here.  The greedy `{1,3}` tries 3, 2, 1
in turn; whenever it stops short of the full run the next character is still
`*`/`_` and `[^*_]+` fails, so the attempt succeeds only when `1 ≤ |l| ≤ 3`
and it then consumes all of `l`.  `[^*_]+` then takes the maximal run `t` of
other characters (shortening it under backtracking can never help, because
the following character would still not be `*`/`_`), and the trailing
`[*_]{1,3}` needs at least one `*`/`_` and greedily consumes at most 3. -/
def emphMatch (cs : List Char) : Option (List Char × Nat) :=
  let l := cs.takeWhile emphChar
  if l.isEmpty || decide (3 < l.length) then none else
  let after := cs.drop l.length
  let t := after.takeWhile (fun c => !(emphChar c))
  if t.isEmpty then none else
  let m := (after.drop t.length).takeWhile emphChar
  if m.isEmpty then none
  else some (t, l.length + t.length + min m.length 3)

/-- `String.prototype.replace` with a global regex: scan left to right, at
each position try the match; on success emit the capture and resume after the
matched characters, otherwise emit the current character and advance by one.
The scan is a single pass — replacements are never rescanned.  The fuel
argument (initialised to the string length, an upper bound on the number of
steps since every step consumes at least one character) makes the recursion
structural. -/
def scanRepl (m : List Char → Option (List Char × Nat)) :
    Nat → List Char → List Char
  | 0, cs => cs
  | _ + 1, [] => []
  | fuel + 1, c :: rest =>
    match m (c :: rest) with
    | some (cap, k) => cap ++ scanRepl m fuel ((c :: rest).drop k)
    | none => c :: scanRepl m fuel rest

def replaceAll (m : List Char → Option (List Char × Nat)) (cs : List Char) :
    List Char :=
  scanRepl m cs.length cs

/-- `cleanMarkdown` from `src/utils/markdownUtils.ts`: strip link, image,
inline-code and emphasis markup, in that order. -/
def cleanMarkdown (s : String) : String :=
  String.mk (replaceAll emphMatch (replaceAll codeMatch
    (replaceAll imageMatch (replaceAll linkMatch s.data))))

example : cleanMarkdown "Getting *Started*" = "Getting Started" := by decide
example : cleanMarkdown "[a](b)" = "a" := by decide
example : cleanMarkdown "__bold__ and _it_" = "bold and it" := by decide
example : cleanMarkdown "![logo](img.png)" = "!logo" := by decide
example : cleanMarkdown "# not a heading strip" = "# not a heading strip" := by decide

/- ### parseTOC -/

structure TocItem where
  id : String
  title : String
  level : Nat
deriving DecidableEq

/-- `text.split('\n')`: always at least one (possibly empty) line. -/
def splitLines : List Char → List (List Char)
  | [] => [[]]
  | c :: rest =>
    if c = '\n' then [] :: splitLines rest
    else
      match splitLines rest with
      | l :: ls => (c :: l) :: ls
      | [] => [[c]]

/-- The heading regex `/^(#{1,3})\s+(.+)$/` of `parseTOC`, evaluated on one
line.  Derivation from the regex semantics: the greedy `#{1,3}` must stop at a
non-`#` character, so it matches exactly the leading `#` run, which must have
length 1–3 (with 4+ leading hashes every retry still faces a `#` where `\s+`
needs whitespace, so the whole match fails).  `\s+` then greedily takes the
maximal whitespace run `ws` (nonempty) and `(.+)$` must cover the entire
remainder `rest` with non-line-terminator characters.  When `rest` is empty,
backtracking lets `\s+` give up its final character(s) to `(.+)`: the capture
becomes the last whitespace character, which works exactly when `ws` has at
least two characters and its last one is matched by `.` (shorter `\s+` choices
only add that same character to the capture, so they cannot help). -/
def headerMatchTail (h : Nat) (afterH : List Char) : Option (Nat × List Char) :=
  let ws := afterH.takeWhile jsWs
  let rest := afterH.drop ws.length
  if ws.isEmpty then none
  else if rest.isEmpty then
    match ws.getLast? with
    | some c => if decide (2 ≤ ws.length) && dotChar c then some (h, [c]) else none
    | none => none
  else if rest.all dotChar then some (h, rest) else none

def headerMatch (line : List Char) : Option (Nat × List Char) :=
  let hashes := line.takeWhile (fun c => c == '#')
  if hashes.length == 0 || decide (3 < hashes.length) then none
  else headerMatchTail hashes.length (line.drop hashes.length)

/-- `slugCounts.set(key, value)` on the association-list model of the JS Map. -/
def setCount : List (String × Nat) → String → Nat → List (String × Nat)
  | [], k, v => [(k, v)]
  | (k1, v1) :: rest, k, v =>
    if k1 = k then (k, v) :: rest else (k1, v1) :: setCount rest k v

/-- The scanning loop of `parseTOC`: for each line matching the heading regex,
trim the captured title, clean it, slugify it, and disambiguate the id through
the `slugCounts` map (first occurrence: bare slug, counter set to 0; later
occurrences: increment the counter and append `-<counter>`). -/
def buildToc : List (List Char) → List (String × Nat) → List TocItem
  | [], _ => []
  | l :: ls, counts =>
    match headerMatch l with
    | none => buildToc ls counts
    | some (lvl, cap) =>
      let rawTitle := trimS (String.mk cap)
      let rawId := slugify (cleanMarkdown rawTitle)
      match List.lookup rawId counts with
      | some c =>
        { id := rawId ++ "-" ++ toString (c + 1), title := rawTitle, level := lvl } ::
          buildToc ls (setCount counts rawId (c + 1))
      | none =>
        { id := rawId, title := rawTitle, level := lvl } ::
          buildToc ls (setCount counts rawId 0)

/-- `parseTOC` from `src/utils/markdownUtils.ts`. -/
def parseTOC (text : String) : List TocItem :=
  buildToc (splitLines text.data) []

/-- `getUniqueId` from `src/components/MarkdownRenderer.tsx`, with the
render-scoped `slugCounts` map passed explicitly: returns the assigned id and
the updated map. -/
def getUniqueId (slugCounts : List (String × Nat)) (text : String) :
    String × List (String × Nat) :=
  let rawId := slugify text
  match List.lookup rawId slugCounts with
  | some c => (rawId ++ "-" ++ toString (c + 1), setCount slugCounts rawId (c + 1))
  | none => (rawId, setCount slugCounts rawId 0)

example : (parseTOC "# Getting *Started*").map TocItem.id = ["getting-started"] := by decide
example : (parseTOC "# Intro\n# Intro\n# Intro").map TocItem.id = ["intro", "intro-1", "intro-2"] := by decide
example : (parseTOC "# Intro\n# Intro 1\n# Intro").map TocItem.id = ["intro", "intro-1", "intro-1"] := by decide
example : parseTOC "#### Four" = [] := by decide
example : (parseTOC "### Three").map TocItem.level = [3] := by decide
example : parseTOC "# A\r" = [] := by decide
example : (parseTOC "## Two").map TocItem.id = ["two"] := by decide

/- ### parseMarkdownByH1 -/

structure DocSection where
  id : String
  title : String
  content : String
  raw : String
deriving DecidableEq

/-- `/^#\s+(.+)/.test(line)`: one `#`, at least one whitespace character, then
at least one character matched by `.`.  With `ws` the maximal whitespace run
after the `#` and `rest` the remainder: if `rest` is nonempty its first
character is not whitespace, hence not a line terminator, hence matched by
`.`; if `rest` is empty, backtracking on `\s+` succeeds exactly when some
whitespace character after the first is matched by `.`. -/
def h1Test (line : List Char) : Bool :=
  match line with
  | '#' :: afterH =>
    let ws := afterH.takeWhile jsWs
    let rest := afterH.drop ws.length
    !ws.isEmpty && (!rest.isEmpty || (ws.drop 1).any dotChar)
  | _ => false

/-- `line.replace(/^#\s+/, '')`: the anchored non-global replace removes the
leading `#` and the maximal whitespace run after it (the pattern ends in the
greedy `\s+`, so nothing forces backtracking); if the pattern does not match,
the line is unchanged. -/
def stripH1Marker (line : List Char) : List Char :=
  match line with
  | '#' :: afterH =>
    let ws := afterH.takeWhile jsWs
    if ws.isEmpty then line else afterH.drop ws.length
  | _ => line

/-- `title.replace(/^#\s*/, '')`: removes one leading `#` together with the
(possibly empty) whitespace run following it. -/
def stripHashMarker (title : List Char) : List Char :=
  match title with
  | '#' :: afterH => afterH.drop (afterH.takeWhile jsWs).length
  | _ => title

/-- `lines.join('\n')`. -/
def joinLines : List (List Char) → List Char
  | [] => []
  | [l] => l
  | l :: ls => l ++ '\n' :: joinLines ls

/-- The section object pushed by `pushSection` given the current title, the
pending content lines, and the current value of the section counter.  Note
that `raw` embeds the title BEFORE the extra `replace(/^#\s*/, '')` applied to
the `title` field. -/
def mkSection (idx : Nat) (title : List Char) (contentLines : List (List Char)) :
    DocSection :=
  let content := trimL (joinLines contentLines)
  { id := "section-" ++ toString idx
    title := String.mk (trimL (stripHashMarker title))
    content := String.mk content
    raw := "# " ++ String.mk title ++ "\n\n" ++ String.mk content }

/-- `pushSection`'s internal guard: push only when there are pending content
lines or the current title differs from the initial "Introduction". -/
def pushGuard (title : List Char) (contentLines : List (List Char)) : Bool :=
  !contentLines.isEmpty || !(title == ("Introduction".data))

/-- The line loop of `parseMarkdownByH1`, with the mutable state
(currentTitle, currentContentLines, sectionIndex, sections) passed
explicitly.  At a heading line the previous section is pushed only when some
section already exists or content lines are pending (and `pushSection`'s own
guard also holds); the section counter advances only on an actual push. -/
def splitLoop : List (List Char) → List Char → List (List Char) → Nat →
    List DocSection → List DocSection
  | [], title, content, idx, secs =>
    if pushGuard title content then secs ++ [mkSection idx title content] else secs
  | line :: rest, title, content, idx, secs =>
    if h1Test line then
      if (decide (0 < secs.length) || !content.isEmpty) && pushGuard title content then
        splitLoop rest (trimL (stripH1Marker line)) [] (idx + 1)
          (secs ++ [mkSection idx title content])
      else
        splitLoop rest (trimL (stripH1Marker line)) [] idx secs
    else
      splitLoop rest title (content ++ [line]) idx secs

def rawSections (text : String) : List DocSection :=
  splitLoop (splitLines text.data) ("Introduction".data) [] 0 []

/-- The final rule of `parseMarkdownByH1`: when more than one section exists
and the first is an "Introduction" with empty content, it is removed
(`sections.shift()`), without renumbering the remaining ids. -/
def dropIntro (secs : List DocSection) : Bool :=
  match secs with
  | s :: _ :: _ => s.title == "Introduction" && s.content == ""
  | _ => false

/-- `parseMarkdownByH1` from `src/utils/markdownUtils.ts`. -/
def parseMarkdownByH1 (text : String) : List DocSection :=
  let secs := rawSections text
  if dropIntro secs then secs.tail else secs

example : parseMarkdownByH1 "# A\nfoo\n# B\nbar" =
    [⟨"section-0", "A", "foo", "# A\n\nfoo"⟩,
     ⟨"section-1", "B", "bar", "# B\n\nbar"⟩] := by decide
example : (parseMarkdownByH1 "\n\n# A\nfoo").map DocSection.id = ["section-1"] := by decide
example : parseMarkdownByH1 "just text, no headings" =
    [⟨"section-0", "Introduction", "just text, no headings",
      "# Introduction\n\njust text, no headings"⟩] := by decide
example : parseMarkdownByH1 "# # Foo\nbar" =
    [⟨"section-0", "Foo", "bar", "# # Foo\n\nbar"⟩] := by decide
example : parseMarkdownByH1 "# Introduction" = [] := by decide
example : (parseMarkdownByH1 "```\n# X\n```").map
    (fun s => (s.id, s.title, s.content)) =
    [("section-0", "Introduction", "```"), ("section-1", "X", "```")] := by decide

/- ### Spec-side description of a TOC heading line -/

/-- Modelled from the claim's wording: the line consists of 1–3 leading `#`
characters followed by whitespace and non-empty text. -/
def SpecHeadingLineNaive (line : List Char) : Prop :=
  ∃ h w t, 1 ≤ h ∧ h ≤ 3 ∧ (∀ c ∈ w, jsWs c = true) ∧ w ≠ [] ∧ t ≠ [] ∧
    line = List.replicate h '#' ++ w ++ t

/-- The amended description at level `h`: 1–3 leading `#` characters, then
whitespace, then non-empty text containing no line-terminator characters. -/
def SpecHeadingLine (line : List Char) (h : Nat) : Prop :=
  ∃ w t, 1 ≤ h ∧ h ≤ 3 ∧ (∀ c ∈ w, jsWs c = true) ∧ w ≠ [] ∧ t ≠ [] ∧
    (∀ c ∈ t, dotChar c = true) ∧ line = List.replicate h '#' ++ w ++ t

/- ### Claim theorems settled by direct evaluation -/

/-- C1: cross-pipeline id agreement on the example heading "Getting
*Started*": the TOC pipeline (cleanMarkdown then slugify, as in parseTOC) and
the live-render id assignment (slugify of the rendered text "Getting
Started", as in getUniqueId with a fresh counter map) both produce
"getting-started". -/
theorem cross_pipeline_agreement_getting_started :
    slugify (cleanMarkdown "Getting *Started*") = "getting-started" ∧
    (parseTOC "# Getting *Started*").map TocItem.id = ["getting-started"] ∧
    (getUniqueId [] "Getting Started").1 = "getting-started" :=
  ⟨by decide, by decide, by decide⟩

/-- C7: evaluation of the cleaning pipeline at an image-syntax title.  The
link rule runs first and consumes the `[alt](url)` part of `![alt](url)`,
leaving `!alt`; the image rule (whose own comment says `![text](url) ->
text`) then finds nothing to match, so the documented result `alt` is never
produced. -/
theorem clean_image_title_value :
    cleanMarkdown "![logo](img.png)" = "!logo" ∧ ("!logo" : String) ≠ "logo" :=
  ⟨by decide, by decide⟩

/-- C10: code fences are not tracked — in "```\n# X\n```" the heading-shaped
line inside the fence still starts a new section in parseMarkdownByH1 and
still receives a TOC entry in parseTOC. -/
theorem code_fence_heading_takes_effect :
    (parseMarkdownByH1 "```\n# X\n```").map (fun s => (s.id, s.title, s.content)) =
      [("section-0", "Introduction", "```"), ("section-1", "X", "```")] ∧
    (parseTOC "```\n# X\n```").map (fun i => (i.id, i.title, i.level)) =
      [("x", "X", 1)] :=
  ⟨by decide, by decide⟩

/-- C2 counterexample: for the heading sequence "Intro", "Intro 1", "Intro"
the assigned TOC ids are ["intro", "intro-1", "intro-1"] — not pairwise
distinct, because the bare slug of the second heading collides with the
suffixed id of the third. -/
theorem toc_ids_not_globally_unique :
    (parseTOC "# Intro\n# Intro 1\n# Intro").map TocItem.id =
      ["intro", "intro-1", "intro-1"] ∧
    ¬ ((parseTOC "# Intro\n# Intro 1\n# Intro").map TocItem.id).Nodup :=
  ⟨by decide, by decide⟩

/-- C4 counterexample: for "\n\n# A\nfoo" the empty leading Introduction is
pushed as section-0 and then dropped, so the single emitted section keeps the
id "section-1" — the counter does not start at 0 for the first emitted
section. -/
theorem first_section_id_after_drop :
    (parseMarkdownByH1 "\n\n# A\nfoo").map DocSection.id = ["section-1"] ∧
    ("section-1" : String) ≠ "section-0" :=
  ⟨by decide, by decide⟩

/-- C5 counterexample: "## Two" contains no level-1 heading line, yet
parseTOC returns a (level-2) entry rather than an empty TOC. -/
theorem no_h1_but_toc_nonempty :
    (∀ l ∈ splitLines ("## Two".data), h1Test l = false) ∧
    parseTOC "## Two" ≠ [] :=
  ⟨by decide, by decide⟩

/-- C6 counterexample: for "# # Foo\nbar" the emitted section has title "Foo"
and content "bar" but raw "# # Foo\n\nbar", so raw differs from
"# " ++ title ++ "\n\n" ++ content. -/
theorem raw_not_title_reconstruction :
    parseMarkdownByH1 "# # Foo\nbar" =
      [⟨"section-0", "Foo", "bar", "# # Foo\n\nbar"⟩] ∧
    ∀ s ∈ parseMarkdownByH1 "# # Foo\nbar",
      s.raw ≠ "# " ++ s.title ++ "\n\n" ++ s.content :=
  ⟨by decide, by decide⟩

/-- C9 counterexample: the line "# A\r" (as produced when a CRLF document is
split at LF) consists of one `#`, whitespace, and the non-empty text "A\r",
yet parseTOC emits no entry for it: `(.+)$` cannot match the carriage
return. -/
theorem toc_misses_cr_heading_line :
    SpecHeadingLineNaive ("# A\r".data) ∧ parseTOC "# A\r" = [] := by
  constructor
  · exact ⟨1, [' '], ['A', '\r'], by decide, by decide, by decide, by decide,
      by decide, by decide⟩
  · decide

/- ### Injectivity of the decimal rendering used in `-<counter>` suffixes -/

def digitsVal (cs : List Char) : Nat :=
  cs.foldl (fun a c => a * 10 + (c.toNat - 48)) 0

theorem toDigitsCore_shift (b : Nat) :
    ∀ (fuel n : Nat) (ds : List Char),
      Nat.toDigitsCore b fuel n ds = Nat.toDigitsCore b fuel n [] ++ ds := by
  intro fuel
  induction fuel with
  | zero => intro n ds; rfl
  | succ f ih =>
    intro n ds
    simp only [Nat.toDigitsCore]
    by_cases h : n / b = 0
    · rw [if_pos h, if_pos h]; rfl
    · rw [if_neg h, if_neg h, ih (n / b) (Nat.digitChar (n % b) :: ds),
        ih (n / b) [Nat.digitChar (n % b)], List.append_assoc]
      rfl

theorem toDigitsCore_fuel (b : Nat) (hb : 2 ≤ b) :
    ∀ (n f1 f2 : Nat), n < f1 → n < f2 → ∀ ds,
      Nat.toDigitsCore b f1 n ds = Nat.toDigitsCore b f2 n ds := by
  intro n
  induction n using Nat.strong_induction_on with
  | _ n ih =>
    intro f1 f2 h1 h2 ds
    cases f1 with
    | zero => omega
    | succ fa =>
      cases f2 with
      | zero => omega
      | succ fb =>
        simp only [Nat.toDigitsCore]
        by_cases h : n / b = 0
        · rw [if_pos h, if_pos h]
        · rw [if_neg h, if_neg h]
          have hn0 : 0 < n := by
            rcases Nat.eq_zero_or_pos n with h0 | h0
            · exact absurd (by rw [h0]; exact Nat.zero_div b) h
            · exact h0
          have hnb : n / b < n := Nat.div_lt_self hn0 hb
          exact ih (n / b) hnb fa fb (by omega) (by omega) _

theorem digitChar_toNat (d : Nat) (h : d < 10) :
    (Nat.digitChar d).toNat = 48 + d := by
  interval_cases d <;> rfl

theorem digitsVal_toDigits : ∀ n : Nat, digitsVal (Nat.toDigits 10 n) = n := by
  intro n
  induction n using Nat.strong_induction_on with
  | _ n ih =>
    rw [Nat.toDigits]
    simp only [Nat.toDigitsCore]
    by_cases h : n / 10 = 0
    · rw [if_pos h]
      have hlt : n < 10 := by omega
      simp only [digitsVal, List.foldl]
      rw [digitChar_toNat (n % 10) (Nat.mod_lt n (by omega))]
      omega
    · rw [if_neg h]
      have hn0 : 0 < n := by
        rcases Nat.eq_zero_or_pos n with h0 | h0
        · exact absurd (by rw [h0]) h
        · exact h0
      have hlt : n / 10 < n := Nat.div_lt_self hn0 (by omega)
      rw [toDigitsCore_fuel 10 (by omega) (n / 10) n (n / 10 + 1)
        hlt (Nat.lt_succ_self _) [Nat.digitChar (n % 10)]]
      rw [toDigitsCore_shift 10 (n / 10 + 1) (n / 10) [Nat.digitChar (n % 10)]]
      have hrec : digitsVal (Nat.toDigitsCore 10 (n / 10 + 1) (n / 10) []) = n / 10 := by
        have := ih (n / 10) hlt
        rwa [Nat.toDigits] at this
      simp only [digitsVal] at hrec ⊢
      rw [List.foldl_append, hrec]
      simp only [List.foldl]
      rw [digitChar_toNat (n % 10) (Nat.mod_lt n (by omega))]
      omega

theorem natRepr_inj {m n : Nat} (h : Nat.repr m = Nat.repr n) : m = n := by
  have hd : Nat.toDigits 10 m = Nat.toDigits 10 n := by
    have h2 := congrArg String.data h
    simpa [Nat.repr, List.asString] using h2
  have h3 := congrArg digitsVal hd
  rwa [digitsVal_toDigits, digitsVal_toDigits] at h3

theorem natToString_inj {m n : Nat} (h : (toString m : String) = toString n) :
    m = n :=
  natRepr_inj h

/- ### The disambiguation counters of parseTOC, in general -/

theorem lookup_setCount (counts : List (String × Nat)) (k : String) (v : Nat)
    (s : String) :
    List.lookup s (setCount counts k v) =
      if s = k then some v else List.lookup s counts := by
  induction counts with
  | nil =>
    by_cases h : s = k
    · subst h
      simp [setCount, List.lookup]
    · have hbeq : (s == k) = false := beq_eq_false_iff_ne.mpr h
      simp [setCount, List.lookup, hbeq, h]
  | cons kv rest ih =>
    obtain ⟨k1, v1⟩ := kv
    simp only [setCount]
    by_cases h1 : k1 = k
    · subst h1
      by_cases h : s = k1
      · subst h
        simp [List.lookup]
      · have hbeq : (s == k1) = false := beq_eq_false_iff_ne.mpr h
        simp [List.lookup, hbeq, h]
    · rw [if_neg h1]
      by_cases h : s = k1
      · subst h
        rw [if_neg (fun hh => h1 hh)]
        simp [List.lookup]
      · have hbeq : (s == k1) = false := beq_eq_false_iff_ne.mpr h
        simp [List.lookup, hbeq, h, ih]

/-- Occurrence-counting state transformer: one more occurrence of `s` seen. -/
def bump (p : String → Nat) (s : String) : String → Nat :=
  fun t => if t = s then p t + 1 else p t

/-- The disambiguation scheme in the spec's terms: given the number `p s` of
occurrences of each slug already processed, the next occurrence of `s` gets
the bare slug when it is the first, and `s-k` when it is the (k+1)-st. -/
def idsFromAux : (String → Nat) → List String → List String
  | _, [] => []
  | p, s :: rest =>
    (if p s = 0 then s else s ++ "-" ++ toString (p s)) :: idsFromAux (bump p s) rest

/-- The relation between the occurrence counts `p` and the JS `slugCounts`
map: a slug that occurred `k+1` times is stored with counter `k`; an unseen
slug is absent. -/
def CountsInv (p : String → Nat) (counts : List (String × Nat)) : Prop :=
  ∀ s, List.lookup s counts = if p s = 0 then none else some (p s - 1)

/-- The cleaned slug of each heading line of the document, in order: the
input sequence to parseTOC's disambiguation counters. -/
def rawIdsOf (text : String) : List String :=
  (splitLines text.data).filterMap
    (fun l => (headerMatch l).map
      (fun q => slugify (cleanMarkdown (trimS (String.mk q.2)))))

theorem buildToc_ids : ∀ (ls : List (List Char)) (p : String → Nat)
    (counts : List (String × Nat)), CountsInv p counts →
    (buildToc ls counts).map TocItem.id =
      idsFromAux p (ls.filterMap (fun l => (headerMatch l).map
        (fun q => slugify (cleanMarkdown (trimS (String.mk q.2)))))) := by
  intro ls
  induction ls with
  | nil => intro p counts _; rfl
  | cons l rest ih =>
    intro p counts hinv
    cases hm : headerMatch l with
    | none =>
      simp only [buildToc, hm, List.filterMap_cons, Option.map_none']
      exact ih p counts hinv
    | some q =>
      obtain ⟨lvl, cap⟩ := q
      simp only [buildToc, hm, List.filterMap_cons, Option.map_some']
      have hl := hinv (slugify (cleanMarkdown (trimS (String.mk cap))))
      by_cases hp : p (slugify (cleanMarkdown (trimS (String.mk cap)))) = 0
      · rw [if_pos hp] at hl
        rw [hl]
        simp only [List.map_cons, idsFromAux, if_pos hp]
        congr 1
        refine ih _ _ ?_
        intro s
        rw [lookup_setCount]
        by_cases hs : s = slugify (cleanMarkdown (trimS (String.mk cap)))
        · subst hs
          rw [if_pos rfl]
          simp [bump, hp]
        · rw [if_neg hs]
          have hv := hinv s
          simp [bump, hs, hv]
      · rw [if_neg hp] at hl
        rw [hl]
        simp only [List.map_cons, idsFromAux, if_neg hp]
        have hsub : p (slugify (cleanMarkdown (trimS (String.mk cap)))) - 1 + 1 =
            p (slugify (cleanMarkdown (trimS (String.mk cap)))) := by omega
        rw [hsub]
        congr 1
        refine ih _ _ ?_
        intro s
        rw [lookup_setCount]
        by_cases hs : s = slugify (cleanMarkdown (trimS (String.mk cap)))
        · subst hs
          rw [if_pos rfl]
          have hb : bump p (slugify (cleanMarkdown (trimS (String.mk cap))))
              (slugify (cleanMarkdown (trimS (String.mk cap)))) =
              p (slugify (cleanMarkdown (trimS (String.mk cap)))) + 1 := by
            simp [bump]
          rw [hb, if_neg (Nat.succ_ne_zero _)]
          simp
        · rw [if_neg hs]
          have hv := hinv s
          simp [bump, hs, hv]

theorem idsFromAux_length : ∀ (l : List String) (p : String → Nat),
    (idsFromAux p l).length = l.length := by
  intro l
  induction l with
  | nil => intro p; rfl
  | cons s rest ih => intro p; simp [idsFromAux, ih]

theorem parseTOC_map_id (text : String) :
    (parseTOC text).map TocItem.id = idsFromAux (fun _ => 0) (rawIdsOf text) := by
  refine buildToc_ids (splitLines text.data) (fun _ => 0) [] ?_
  intro s
  simp [List.lookup]

theorem parseTOC_length (text : String) :
    (parseTOC text).length = (rawIdsOf text).length := by
  have h := congrArg List.length (parseTOC_map_id text)
  rw [List.length_map, idsFromAux_length] at h
  exact h

theorem idsFromAux_getD : ∀ (l : List String) (p : String → Nat) (i : Nat),
    i < l.length →
    (idsFromAux p l).getD i "" =
      (if p (l.getD i "") + (l.take i).count (l.getD i "") = 0 then l.getD i ""
       else l.getD i "" ++ "-" ++
         toString (p (l.getD i "") + (l.take i).count (l.getD i ""))) := by
  intro l
  induction l with
  | nil => intro p i h; simp at h
  | cons s0 rest ih =>
    intro p i h
    cases i with
    | zero =>
      simp [idsFromAux]
    | succ i =>
      have hi : i < rest.length := by simpa using h
      simp only [idsFromAux, List.getD_cons_succ]
      rw [ih (bump p s0) i hi]
      have hcnt : bump p s0 (rest.getD i "") + (rest.take i).count (rest.getD i "") =
          p (rest.getD i "") + (((s0 :: rest).take (i + 1)).count (rest.getD i "")) := by
        rw [List.take_succ_cons, List.count_cons]
        by_cases hs : rest.getD i "" = s0
        · have hbeq : (s0 == rest.getD i "") = true := beq_iff_eq.mpr hs.symm
          rw [if_pos hbeq]
          simp only [bump, if_pos hs]
          omega
        · have hbeq : (s0 == rest.getD i "") = false :=
            beq_eq_false_iff_ne.mpr (fun hh => hs hh.symm)
          rw [if_neg (by rw [hbeq]; exact Bool.false_ne_true)]
          simp only [bump, if_neg hs]
          omega
      rw [hcnt]

/-- C3: the heading sequence "Intro", "Intro", "Intro" receives the TOC ids
["intro", "intro-1", "intro-2"]; in general the i-th TOC id is the bare
cleaned slug when no earlier heading produced the same slug, and otherwise
the slug suffixed with `-k` where k is the number of earlier occurrences. -/
theorem toc_disambiguation_sequence :
    ((parseTOC "# Intro\n# Intro\n# Intro").map TocItem.id =
      ["intro", "intro-1", "intro-2"]) ∧
    ∀ (text : String) (i : Nat), i < (parseTOC text).length →
      ((parseTOC text).map TocItem.id).getD i "" =
        (if ((rawIdsOf text).take i).count ((rawIdsOf text).getD i "") = 0 then
          (rawIdsOf text).getD i ""
         else (rawIdsOf text).getD i "" ++ "-" ++
           toString (((rawIdsOf text).take i).count ((rawIdsOf text).getD i ""))) := by
  constructor
  · decide
  · intro text i h
    rw [parseTOC_map_id]
    rw [idsFromAux_getD (rawIdsOf text) (fun _ => 0) i
      (by rw [← parseTOC_length]; exact h)]
    simp only [Nat.zero_add]

/-- Witness for toc_disambiguation_sequence at the document "# B\n# B",
index 1. -/
theorem toc_disambiguation_sequence_witness :
    1 < (parseTOC "# B\n# B").length ∧
    ((parseTOC "# B\n# B").map TocItem.id).getD 1 "" =
      (if ((rawIdsOf "# B\n# B").take 1).count ((rawIdsOf "# B\n# B").getD 1 "") = 0
       then (rawIdsOf "# B\n# B").getD 1 ""
       else (rawIdsOf "# B\n# B").getD 1 "" ++ "-" ++
         toString (((rawIdsOf "# B\n# B").take 1).count ((rawIdsOf "# B\n# B").getD 1 ""))) :=
  ⟨by decide, toc_disambiguation_sequence.2 "# B\n# B" 1 (by decide)⟩

/-- C2 amended: TOC ids are pairwise distinct among entries whose cleaned
slugs are equal (the per-key counters guarantee this); ids can still collide
across different slug keys, as the counterexample shows. -/
theorem toc_ids_unique_within_slug (text : String) (i j : Nat) (hij : i < j)
    (hj : j < (parseTOC text).length)
    (hsame : (rawIdsOf text).getD i "" = (rawIdsOf text).getD j "") :
    ((parseTOC text).map TocItem.id).getD i "" ≠
      ((parseTOC text).map TocItem.id).getD j "" := by
  have hlen := parseTOC_length text
  have hj' : j < (rawIdsOf text).length := by omega
  have hi' : i < (rawIdsOf text).length := by omega
  have hstep : ((rawIdsOf text).take (i + 1)).count ((rawIdsOf text).getD j "") =
      ((rawIdsOf text).take i).count ((rawIdsOf text).getD j "") + 1 := by
    rw [List.take_succ, List.getElem?_eq_getElem hi', List.count_append]
    have hgi : (rawIdsOf text)[i] = (rawIdsOf text).getD j "" := by
      rw [← List.getD_eq_getElem (rawIdsOf text) "" hi']
      exact hsame
    simp [hgi]
  have hmono : ((rawIdsOf text).take (i + 1)).count ((rawIdsOf text).getD j "") ≤
      ((rawIdsOf text).take j).count ((rawIdsOf text).getD j "") :=
    (List.take_prefix_take_left (rawIdsOf text)
      (by omega : i + 1 ≤ j)).count_le ((rawIdsOf text).getD j "")
  rw [parseTOC_map_id, idsFromAux_getD (rawIdsOf text) (fun _ => 0) i hi',
    idsFromAux_getD (rawIdsOf text) (fun _ => 0) j hj']
  simp only [Nat.zero_add, hsame]
  have hcj : ((rawIdsOf text).take j).count ((rawIdsOf text).getD j "") ≠ 0 := by
    omega
  rw [if_neg hcj]
  by_cases hci : ((rawIdsOf text).take i).count ((rawIdsOf text).getD j "") = 0
  · rw [if_pos hci]
    intro hEq
    have hlenEq := congrArg String.length hEq
    simp only [String.length_append,
      show ("-" : String).length = 1 from rfl] at hlenEq
    omega
  · rw [if_neg hci]
    intro hEq
    have hdata := congrArg String.data hEq
    simp only [String.data_append] at hdata
    rw [List.append_assoc, List.append_assoc] at hdata
    have h2 := List.append_cancel_left hdata
    have h3 := List.append_cancel_left h2
    have h4 : (toString (((rawIdsOf text).take i).count ((rawIdsOf text).getD j "")) :
        String) = toString (((rawIdsOf text).take j).count ((rawIdsOf text).getD j "")) := by
      apply String.ext
      exact h3
    have h5 := natToString_inj h4
    omega

/-- Witness for toc_ids_unique_within_slug at the document "# A\n# A",
indices 0 and 1. -/
theorem toc_ids_unique_within_slug_witness :
    ((0 : Nat) < 1 ∧ 1 < (parseTOC "# A\n# A").length ∧
      (rawIdsOf "# A\n# A").getD 0 "" = (rawIdsOf "# A\n# A").getD 1 "") ∧
    ((parseTOC "# A\n# A").map TocItem.id).getD 0 "" ≠
      ((parseTOC "# A\n# A").map TocItem.id).getD 1 "" :=
  ⟨⟨by decide, by decide, by decide⟩,
   toc_ids_unique_within_slug "# A\n# A" 0 1 (by decide) (by decide) (by decide)⟩

/- ### Section ids in general -/

theorem getD_map_range (n : Nat) (f : Nat → String) (i : Nat) (h : i < n) :
    ((List.range n).map f).getD i "" = f i := by
  rw [List.getD_eq_getElem _ "" (by simpa using h)]
  simp

theorem splitLoop_ids : ∀ (lines : List (List Char)) (title : List Char)
    (content : List (List Char)) (idx : Nat) (secs : List DocSection),
    ∃ n, (splitLoop lines title content idx secs).map DocSection.id =
      secs.map DocSection.id ++
        (List.range n).map (fun k => "section-" ++ toString (idx + k)) := by
  intro lines
  induction lines with
  | nil =>
    intro title content idx secs
    simp only [splitLoop]
    by_cases h : pushGuard title content
    · refine ⟨1, ?_⟩
      rw [if_pos h]
      simp [mkSection, List.range_succ]
    · refine ⟨0, ?_⟩
      rw [if_neg h]
      simp
  | cons line rest ih =>
    intro title content idx secs
    simp only [splitLoop]
    by_cases h1 : h1Test line
    · rw [if_pos h1]
      by_cases h2 : ((decide (0 < secs.length) || !content.isEmpty) &&
          pushGuard title content) = true
      · rw [if_pos h2]
        obtain ⟨n, hn⟩ := ih (trimL (stripH1Marker line)) [] (idx + 1)
          (secs ++ [mkSection idx title content])
        refine ⟨n + 1, ?_⟩
        rw [hn, List.map_append, List.append_assoc]
        congr 1
        have htail : List.map (fun k => "section-" ++ toString (idx + 1 + k)) (List.range n) =
            List.map ((fun k => "section-" ++ toString (idx + k)) ∘ Nat.succ) (List.range n) := by
          refine List.map_congr_left ?_
          intro k hk
          show "section-" ++ toString (idx + 1 + k) = "section-" ++ toString (idx + (k + 1))
          have harith : idx + 1 + k = idx + (k + 1) := by omega
          rw [harith]
        rw [List.range_succ_eq_map]
        simp only [List.map_cons, List.map_map, List.map_nil, List.singleton_append,
          Nat.add_zero]
        rw [show (mkSection idx title content).id = "section-" ++ toString idx from rfl,
          htail]
      · rw [if_neg h2]
        exact ih _ [] idx secs
    · rw [if_neg h1]
      exact ih title (content ++ [line]) idx secs

theorem rawSections_ids (text : String) :
    ∃ n, (rawSections text).map DocSection.id =
      (List.range n).map (fun k => "section-" ++ toString k) := by
  obtain ⟨n, hn⟩ := splitLoop_ids (splitLines text.data) ("Introduction".data) [] 0 []
  refine ⟨n, ?_⟩
  rw [show rawSections text =
    splitLoop (splitLines text.data) ("Introduction".data) [] 0 [] from rfl]
  rw [hn]
  simp only [List.map_nil, List.nil_append]
  apply List.map_congr_left
  intro k _
  rw [Nat.zero_add]

/-- C4 amended: the emission-time counter gives the first PUSHED section id
"section-0"; when the empty leading Introduction is subsequently dropped the
remaining ids are NOT renumbered, so the i-th returned section has id
"section-(i+1)" in that case and "section-i" otherwise.  In particular for
"\n\n# A\nfoo" the first returned section has id "section-1", not
"section-0". -/
theorem section_ids_sequential_with_drop_offset (text : String) (i : Nat)
    (h : i < (parseMarkdownByH1 text).length) :
    ((parseMarkdownByH1 text).map DocSection.id).getD i "" =
      "section-" ++ toString (i + (if dropIntro (rawSections text) then 1 else 0)) := by
  obtain ⟨n, hn⟩ := rawSections_ids text
  have hlen : (rawSections text).length = n := by
    have h2 := congrArg List.length hn
    simpa using h2
  rw [show parseMarkdownByH1 text =
    (if dropIntro (rawSections text) then (rawSections text).tail
     else rawSections text) from rfl] at h ⊢
  by_cases hd : dropIntro (rawSections text)
  · rw [if_pos hd] at h ⊢
    have hi2 : i + 1 < n := by
      rw [List.length_tail, hlen] at h
      omega
    rw [List.map_tail, hn, ← List.drop_one]
    rw [List.getD_eq_getElem _ ""
      (by simp only [List.length_drop, List.length_map, List.length_range]; omega)]
    rw [List.getElem_drop]
    simp only [List.getElem_map, List.getElem_range]
    have harith : 1 + i = i + 1 := by omega
    rw [harith, if_pos hd]
  · rw [if_neg hd] at h ⊢
    rw [hn, getD_map_range n _ i (by rw [← hlen]; exact h)]
    rw [if_neg hd, Nat.add_zero]

/-- Witness for section_ids_sequential_with_drop_offset at "# A\nfoo",
index 0. -/
theorem section_ids_sequential_with_drop_offset_witness :
    0 < (parseMarkdownByH1 "# A\nfoo").length ∧
    ((parseMarkdownByH1 "# A\nfoo").map DocSection.id).getD 0 "" =
      "section-" ++ toString (0 + (if dropIntro (rawSections "# A\nfoo") then 1 else 0)) :=
  ⟨by decide, section_ids_sequential_with_drop_offset "# A\nfoo" 0 (by decide)⟩

/- ### Degradation on documents without headings -/

theorem splitLines_ne_nil (cs : List Char) : splitLines cs ≠ [] := by
  cases cs with
  | nil => simp [splitLines]
  | cons c rest =>
    simp only [splitLines]
    by_cases h : c = '\n'
    · rw [if_pos h]; simp
    · rw [if_neg h]
      cases hs : splitLines rest with
      | nil => simp
      | cons l ls => simp

theorem splitLines_exists_cons (cs : List Char) :
    ∃ l ls, splitLines cs = l :: ls := by
  cases hx : splitLines cs with
  | nil => exact absurd hx (splitLines_ne_nil cs)
  | cons l ls => exact ⟨l, ls, rfl⟩

theorem joinLines_cons_cons (a b : List Char) (t : List (List Char)) :
    joinLines (a :: b :: t) = a ++ '\n' :: joinLines (b :: t) := rfl

theorem joinLines_splitLines : ∀ cs : List Char, joinLines (splitLines cs) = cs := by
  intro cs
  induction cs with
  | nil => rfl
  | cons c rest ih =>
    simp only [splitLines]
    by_cases h : c = '\n'
    · subst h
      rw [if_pos rfl]
      obtain ⟨l, ls, hs⟩ := splitLines_exists_cons rest
      rw [hs, joinLines_cons_cons]
      rw [hs] at ih
      rw [ih]
      rfl
    · rw [if_neg h]
      obtain ⟨l, ls, hs⟩ := splitLines_exists_cons rest
      rw [hs]
      rw [hs] at ih
      cases ls with
      | nil =>
        have hlr : l = rest := ih
        rw [show joinLines [c :: l] = c :: l from rfl, hlr]
      | cons l2 ls2 =>
        rw [joinLines_cons_cons]
        rw [← ih, joinLines_cons_cons]
        rfl

theorem splitLoop_no_h1 : ∀ (lines : List (List Char)) (title : List Char)
    (content : List (List Char)) (idx : Nat) (secs : List DocSection),
    (∀ l ∈ lines, h1Test l = false) →
    splitLoop lines title content idx secs =
      (if pushGuard title (content ++ lines) then
        secs ++ [mkSection idx title (content ++ lines)] else secs) := by
  intro lines
  induction lines with
  | nil =>
    intro title content idx secs _
    simp [splitLoop]
  | cons line rest ih =>
    intro title content idx secs h
    simp only [splitLoop, h line (List.mem_cons_self line rest),
      Bool.false_eq_true, if_false]
    rw [ih title (content ++ [line]) idx secs
      (fun l hl => h l (List.mem_cons_of_mem line hl))]
    have happ : (content ++ [line]) ++ rest = content ++ line :: rest := by simp
    rw [happ]

theorem buildToc_all_none : ∀ (ls : List (List Char)) (counts : List (String × Nat)),
    (∀ l ∈ ls, headerMatch l = none) → buildToc ls counts = [] := by
  intro ls
  induction ls with
  | nil => intro counts _; rfl
  | cons l rest ih =>
    intro counts h
    simp only [buildToc, h l (List.mem_cons_self l rest)]
    exact ih counts (fun x hx => h x (List.mem_cons_of_mem l hx))

/-- C5 amended: for every document with no level-1 heading line,
parseMarkdownByH1 returns exactly one section titled "Introduction"
containing the whole (trimmed) document; parseTOC is additionally empty
exactly when the document also has no level-2/3 heading lines (i.e. no line
matching the TOC heading regex) — an H2/H3 line still yields a TOC entry, as
the counterexample shows.  No error is raised in either case: both functions
are total. -/
theorem no_heading_degradation (text : String)
    (h : ∀ l ∈ splitLines text.data, h1Test l = false) :
    parseMarkdownByH1 text =
      [⟨"section-0", "Introduction", trimS text, "# Introduction\n\n" ++ trimS text⟩] ∧
    ((∀ l ∈ splitLines text.data, headerMatch l = none) → parseTOC text = []) := by
  constructor
  · have hguard : pushGuard ("Introduction".data) ([] ++ splitLines text.data) = true := by
      obtain ⟨l, ls, hs⟩ := splitLines_exists_cons text.data
      rw [List.nil_append, hs]
      rfl
    have hraw : rawSections text =
        [mkSection 0 ("Introduction".data) (splitLines text.data)] := by
      rw [show rawSections text =
        splitLoop (splitLines text.data) ("Introduction".data) [] 0 [] from rfl,
        splitLoop_no_h1 _ _ _ _ _ h, if_pos hguard, List.nil_append, List.nil_append]
    rw [show parseMarkdownByH1 text = (if dropIntro (rawSections text) then
      (rawSections text).tail else rawSections text) from rfl, hraw]
    rw [if_neg (by
      rw [show dropIntro [mkSection 0 ("Introduction".data) (splitLines text.data)] =
        false from rfl]
      exact Bool.false_ne_true)]
    congr 1
    unfold mkSection
    rw [joinLines_splitLines]
    simp only [trimS, DocSection.mk.injEq]
    refine ⟨by decide, by decide, trivial, ?_⟩
    rw [show ("# " ++ String.mk ("Introduction".data) ++ "\n\n" : String) =
      "# Introduction\n\n" from by decide]
  · intro h2
    rw [show parseTOC text = buildToc (splitLines text.data) [] from rfl]
    exact buildToc_all_none _ [] h2

/-- Witness for no_heading_degradation at the document "plain body text". -/
theorem no_heading_degradation_witness :
    (∀ l ∈ splitLines ("plain body text".data), h1Test l = false) ∧
    parseMarkdownByH1 "plain body text" =
      [⟨"section-0", "Introduction", trimS "plain body text",
        "# Introduction\n\n" ++ trimS "plain body text"⟩] ∧
    parseTOC "plain body text" = [] :=
  ⟨by decide, (no_heading_degradation "plain body text" (by decide)).1,
    (no_heading_degradation "plain body text" (by decide)).2 (by decide)⟩

/- ### Raw reconstruction -/

theorem dropWhile_head_false (p : Char → Bool) :
    ∀ (l : List Char) (c : Char), (l.dropWhile p).head? = some c → p c = false := by
  intro l
  induction l with
  | nil => intro c h; simp [List.dropWhile] at h
  | cons x xs ih =>
    intro c h
    rw [List.dropWhile_cons] at h
    by_cases hx : p x
    · rw [if_pos hx] at h
      exact ih c h
    · rw [if_neg hx] at h
      have hxc : x = c := Option.some.inj h
      rw [← hxc]
      exact Bool.of_not_eq_true hx

theorem dropWhile_eq_self_of_head (p : Char → Bool) (l : List Char)
    (h : ∀ c, l.head? = some c → p c = false) : l.dropWhile p = l := by
  cases l with
  | nil => rfl
  | cons x xs =>
    rw [List.dropWhile_cons, h x rfl]
    simp

theorem trimL_idem (cs : List Char) : trimL (trimL cs) = trimL cs := by
  have h1 : (trimL cs).dropWhile jsWs = trimL cs := by
    apply dropWhile_eq_self_of_head
    intro c hc
    rw [show trimL cs = ((cs.dropWhile jsWs).reverse.dropWhile jsWs).reverse
      from rfl, List.head?_reverse] at hc
    obtain ⟨pre, hpre⟩ :=
      List.dropWhile_suffix (l := (cs.dropWhile jsWs).reverse) jsWs
    have hg : ((cs.dropWhile jsWs).reverse).getLast? = some c := by
      rw [← hpre, List.getLast?_append, hc]
      rfl
    rw [List.getLast?_reverse] at hg
    exact dropWhile_head_false jsWs cs c hg
  have h2 : (trimL cs).reverse.dropWhile jsWs = (trimL cs).reverse := by
    apply dropWhile_eq_self_of_head
    intro c hc
    rw [show trimL cs = ((cs.dropWhile jsWs).reverse.dropWhile jsWs).reverse
      from rfl, List.reverse_reverse] at hc
    exact dropWhile_head_false jsWs (cs.dropWhile jsWs).reverse c hc
  show (((trimL cs).dropWhile jsWs).reverse.dropWhile jsWs).reverse = trimL cs
  rw [h1, h2, List.reverse_reverse]

/-- The shape every pushed section has: raw embeds the stored (trimmed)
heading text T, while the title field strips one extra leading `#`. -/
def TitledRaw (s : DocSection) : Prop :=
  ∃ T : List Char, s.raw = "# " ++ String.mk T ++ "\n\n" ++ s.content ∧
    s.title = String.mk (trimL (stripHashMarker T)) ∧ trimL T = T

theorem mkSection_titledRaw (idx : Nat) (title : List Char)
    (content : List (List Char)) (h : trimL title = title) :
    TitledRaw (mkSection idx title content) :=
  ⟨title, rfl, rfl, h⟩

theorem splitLoop_titledRaw : ∀ (lines : List (List Char)) (title : List Char)
    (content : List (List Char)) (idx : Nat) (secs : List DocSection),
    trimL title = title → (∀ s ∈ secs, TitledRaw s) →
    ∀ s ∈ splitLoop lines title content idx secs, TitledRaw s := by
  intro lines
  induction lines with
  | nil =>
    intro title content idx secs ht hsecs s hs
    simp only [splitLoop] at hs
    by_cases hg : pushGuard title content
    · rw [if_pos hg] at hs
      rcases List.mem_append.1 hs with h1 | h1
      · exact hsecs s h1
      · rw [List.mem_singleton] at h1
        rw [h1]
        exact mkSection_titledRaw idx title content ht
    · rw [if_neg hg] at hs
      exact hsecs s hs
  | cons line rest ih =>
    intro title content idx secs ht hsecs s hs
    simp only [splitLoop] at hs
    by_cases h1 : h1Test line
    · rw [if_pos h1] at hs
      by_cases h2 : ((decide (0 < secs.length) || !content.isEmpty) &&
          pushGuard title content) = true
      · rw [if_pos h2] at hs
        refine ih _ _ _ _ (trimL_idem _) ?_ s hs
        intro x hx
        rcases List.mem_append.1 hx with h3 | h3
        · exact hsecs x h3
        · rw [List.mem_singleton] at h3
          rw [h3]
          exact mkSection_titledRaw idx title content ht
      · rw [if_neg h2] at hs
        exact ih _ _ _ _ (trimL_idem _) hsecs s hs
    · rw [if_neg h1] at hs
      exact ih title (content ++ [line]) idx secs ht hsecs s hs

theorem stripHashMarker_of_head_ne (c : Char) (cs : List Char) (h : c ≠ '#') :
    stripHashMarker (c :: cs) = c :: cs := by
  unfold stripHashMarker
  split
  · rename_i afterH heq
    injection heq with h1 h2
    exact absurd h1 h
  · rfl

/-- C6 amended: every returned section satisfies
raw = "# " ++ T ++ "\n\n" ++ content for the stored (trimmed) heading text T,
with title = trim(T minus one leading `#` and following whitespace); hence
raw = "# " ++ title ++ "\n\n" ++ content holds whenever T does not itself
begin with "#" — for a heading line like "# # Foo" the raw field keeps
"# Foo" while the title is "Foo", and the claimed equality fails. -/
theorem raw_embeds_stored_heading (text : String) (s : DocSection)
    (hs : s ∈ parseMarkdownByH1 text) :
    ∃ T : List Char, s.raw = "# " ++ String.mk T ++ "\n\n" ++ s.content ∧
      s.title = String.mk (trimL (stripHashMarker T)) ∧ trimL T = T ∧
      ((∀ c, T.head? = some c → c ≠ '#') →
        s.raw = "# " ++ s.title ++ "\n\n" ++ s.content) := by
  have hmem : s ∈ rawSections text := by
    rw [show parseMarkdownByH1 text = (if dropIntro (rawSections text) then
      (rawSections text).tail else rawSections text) from rfl] at hs
    by_cases hd : dropIntro (rawSections text)
    · rw [if_pos hd] at hs
      exact List.mem_of_mem_tail hs
    · rw [if_neg hd] at hs
      exact hs
  obtain ⟨T, hraw, htitle, htrim⟩ :=
    splitLoop_titledRaw (splitLines text.data) ("Introduction".data) [] 0 []
      (by decide) (fun y hy => absurd hy (List.not_mem_nil y)) s hmem
  refine ⟨T, hraw, htitle, htrim, ?_⟩
  intro hhash
  have hstrip : stripHashMarker T = T := by
    cases T with
    | nil => rfl
    | cons c cs => exact stripHashMarker_of_head_ne c cs (hhash c rfl)
  rw [hraw, htitle, hstrip, htrim]

/-- Witness for raw_embeds_stored_heading at "# A\nfoo" and its single
section. -/
theorem raw_embeds_stored_heading_witness :
    (⟨"section-0", "A", "foo", "# A\n\nfoo"⟩ : DocSection) ∈
      parseMarkdownByH1 "# A\nfoo" ∧
    ∃ T : List Char,
      ("# A\n\nfoo" : String) = "# " ++ String.mk T ++ "\n\n" ++ "foo" ∧
      ("A" : String) = String.mk (trimL (stripHashMarker T)) ∧ trimL T = T ∧
      ((∀ c, T.head? = some c → c ≠ '#') →
        ("# A\n\nfoo" : String) = "# " ++ "A" ++ "\n\n" ++ "foo") :=
  ⟨by decide, raw_embeds_stored_heading "# A\nfoo"
    ⟨"section-0", "A", "foo", "# A\n\nfoo"⟩ (by decide)⟩

/- ### Characterisation of the TOC heading regex -/

theorem dropWhile_eq_drop_length_takeWhile (p : Char → Bool) :
    ∀ l : List Char, l.drop (l.takeWhile p).length = l.dropWhile p := by
  intro l
  induction l with
  | nil => rfl
  | cons x xs ih =>
    rw [List.takeWhile_cons, List.dropWhile_cons]
    by_cases hx : p x
    · rw [if_pos hx, if_pos hx]
      simpa using ih
    · rw [if_neg hx, if_neg hx]
      rfl

theorem takeWhile_append_drop_length (p : Char → Bool) (l : List Char) :
    l.takeWhile p ++ l.drop (l.takeWhile p).length = l := by
  rw [dropWhile_eq_drop_length_takeWhile]
  exact List.takeWhile_append_dropWhile p l

theorem takeWhile_append_all (p : Char → Bool) :
    ∀ (xs ys : List Char), (∀ c ∈ xs, p c = true) →
      (xs ++ ys).takeWhile p = xs ++ ys.takeWhile p := by
  intro xs ys
  induction xs with
  | nil => intro _; rfl
  | cons x xs1 ih =>
    intro h
    rw [List.cons_append, List.takeWhile_cons, if_pos (h x (List.mem_cons_self x xs1)),
      ih (fun c hc => h c (List.mem_cons_of_mem x hc))]
    rfl

theorem dropWhile_append_all (p : Char → Bool) :
    ∀ (xs ys : List Char), (∀ c ∈ xs, p c = true) →
      (xs ++ ys).dropWhile p = ys.dropWhile p := by
  intro xs ys
  induction xs with
  | nil => intro _; rfl
  | cons x xs1 ih =>
    intro h
    rw [List.cons_append, List.dropWhile_cons, if_pos (h x (List.mem_cons_self x xs1))]
    exact ih (fun c hc => h c (List.mem_cons_of_mem x hc))

theorem takeWhile_nil_of_head (p : Char → Bool) (x : Char) (xs : List Char)
    (h : p x = false) : (x :: xs).takeWhile p = [] := by
  rw [List.takeWhile_cons, if_neg (by rw [h]; exact Bool.false_ne_true)]

theorem jsWs_ne_hash (c : Char) (h : jsWs c = true) : (c == '#') = false := by
  cases hc : c == '#' with
  | false => rfl
  | true =>
    have hc2 : c = '#' := beq_iff_eq.mp hc
    rw [hc2] at h
    exact absurd h (by decide)

theorem headerMatchTail_some (h0 : Nat) (afterH : List Char) (lvl : Nat)
    (cap : List Char) (h : headerMatchTail h0 afterH = some (lvl, cap)) :
    lvl = h0 ∧ ∃ w t, (∀ c ∈ w, jsWs c = true) ∧ w ≠ [] ∧ t ≠ [] ∧
      (∀ c ∈ t, dotChar c = true) ∧ afterH = w ++ t := by
  unfold headerMatchTail at h
  have hdecomp : afterH.takeWhile jsWs ++
      afterH.drop (afterH.takeWhile jsWs).length = afterH :=
    takeWhile_append_drop_length jsWs afterH
  by_cases h1 : (afterH.takeWhile jsWs).isEmpty = true
  · rw [if_pos h1] at h
    exact absurd h (by simp)
  · rw [if_neg h1] at h
    have hwne : afterH.takeWhile jsWs ≠ [] := by
      intro hx
      exact h1 (by rw [hx]; rfl)
    have hwall : ∀ c ∈ afterH.takeWhile jsWs, jsWs c = true :=
      fun c hc => List.mem_takeWhile_imp hc
    by_cases h2 : (afterH.drop (afterH.takeWhile jsWs).length).isEmpty = true
    · rw [if_pos h2] at h
      have hrest : afterH.drop (afterH.takeWhile jsWs).length = [] :=
        List.isEmpty_iff.mp h2
      cases hLast : (afterH.takeWhile jsWs).getLast? with
      | none => rw [hLast] at h; exact absurd h (by simp)
      | some c =>
        rw [hLast] at h
        replace h : (if (decide (2 ≤ (afterH.takeWhile jsWs).length) &&
            dotChar c) = true then some (h0, [c]) else none) = some (lvl, cap) := h
        by_cases h3 : (decide (2 ≤ (afterH.takeWhile jsWs).length) && dotChar c) = true
        · rw [if_pos h3] at h
          have hlen2 : 2 ≤ (afterH.takeWhile jsWs).length := by
            have := (Bool.and_eq_true _ _).mp h3
            exact of_decide_eq_true this.1
          have hdot : dotChar c = true := ((Bool.and_eq_true _ _).mp h3).2
          have hpair := Option.some.inj h
          refine ⟨(Prod.mk.injEq _ _ _ _ ▸ hpair :
            h0 = lvl ∧ [c] = cap).1.symm, (afterH.takeWhile jsWs).dropLast, [c],
            ?_, ?_, ?_, ?_, ?_⟩
          · intro x hx
            exact hwall x ((List.dropLast_sublist _).mem hx)
          · intro hx
            have := congrArg List.length hx
            rw [List.length_dropLast] at this
            simp at this
            omega
          · simp
          · intro x hx
            rw [List.mem_singleton] at hx
            rw [hx]
            exact hdot
          · have hws : (afterH.takeWhile jsWs).dropLast ++ [c] =
                afterH.takeWhile jsWs :=
              List.dropLast_append_getLast? c hLast
            rw [hws]
            rw [hrest, List.append_nil] at hdecomp
            exact hdecomp.symm
        · rw [if_neg h3] at h
          exact absurd h (by simp)
    · rw [if_neg h2] at h
      by_cases h3 : (afterH.drop (afterH.takeWhile jsWs).length).all dotChar = true
      · rw [if_pos h3] at h
        have hpair := Option.some.inj h
        refine ⟨(Prod.mk.injEq _ _ _ _ ▸ hpair :
          h0 = lvl ∧ afterH.drop (afterH.takeWhile jsWs).length = cap).1.symm,
          afterH.takeWhile jsWs, afterH.drop (afterH.takeWhile jsWs).length,
          hwall, hwne, ?_, ?_, hdecomp.symm⟩
        · intro hx
          exact h2 (by rw [hx]; rfl)
        · intro x hx
          exact List.all_eq_true.mp h3 x hx
      · rw [if_neg h3] at h
        exact absurd h (by simp)

theorem mem_takeWhile_char (p : Char → Bool) :
    ∀ (l : List Char) (x : Char), x ∈ l.takeWhile p → p x = true := by
  intro l
  induction l with
  | nil => intro x hx; simp [List.takeWhile] at hx
  | cons a as ih =>
    intro x hx
    rw [List.takeWhile_cons] at hx
    by_cases ha : p a
    · rw [if_pos ha] at hx
      rcases List.mem_cons.1 hx with h1 | h1
      · rw [h1]
        exact ha
      · exact ih x h1
    · rw [if_neg ha] at hx
      exact absurd hx (List.not_mem_nil x)

theorem takeWhile_hash_eq_replicate (line : List Char) :
    line.takeWhile (fun c => c == '#') =
      List.replicate (line.takeWhile (fun c => c == '#')).length '#' := by
  rw [List.eq_replicate_iff]
  refine ⟨rfl, ?_⟩
  intro b hb
  exact beq_iff_eq.mp (mem_takeWhile_char (fun c => c == '#') line b hb)

/-- Forward direction: a successful match of the heading regex yields the
claimed decomposition of the line, at the matched level. -/
theorem headerMatch_some (line : List Char) (lvl : Nat) (cap : List Char)
    (h : headerMatch line = some (lvl, cap)) : SpecHeadingLine line lvl := by
  unfold headerMatch at h
  by_cases hc : ((line.takeWhile (fun c => c == '#')).length == 0 ||
      decide (3 < (line.takeWhile (fun c => c == '#')).length)) = true
  · rw [if_pos hc] at h
    exact absurd h (by simp)
  · rw [if_neg hc] at h
    obtain ⟨hlvl, w, t, hw, hwne, htne, htdot, hAfter⟩ :=
      headerMatchTail_some _ _ _ _ h
    have hbounds : ¬((line.takeWhile (fun c => c == '#')).length = 0 ∨
        3 < (line.takeWhile (fun c => c == '#')).length) := by
      intro hor
      apply hc
      rw [Bool.or_eq_true]
      rcases hor with h1 | h1
      · exact Or.inl (by rw [h1]; rfl)
      · exact Or.inr (decide_eq_true h1)
    push_neg at hbounds
    refine ⟨w, t, by omega, by omega, hw, hwne, htne, htdot, ?_⟩
    rw [hlvl]
    conv_lhs => rw [(takeWhile_append_drop_length (fun c => c == '#') line).symm]
    rw [hAfter]
    rw [show line.takeWhile (fun c => c == '#') =
      List.replicate (line.takeWhile (fun c => c == '#')).length '#' from
      takeWhile_hash_eq_replicate line]
    rw [List.append_assoc, List.length_replicate]

theorem headerMatchTail_case1 (h : Nat) (w t : List Char)
    (hwall : ∀ c ∈ w, jsWs c = true) (hwne : w ≠ [])
    (hrne : t.dropWhile jsWs ≠ [])
    (hdot : ∀ c ∈ t.dropWhile jsWs, dotChar c = true) :
    headerMatchTail h (w ++ t) = some (h, t.dropWhile jsWs) := by
  have hRest : (w ++ t).drop ((w ++ t).takeWhile jsWs).length = t.dropWhile jsWs := by
    rw [dropWhile_eq_drop_length_takeWhile]
    exact dropWhile_append_all jsWs w t hwall
  have hWs : (w ++ t).takeWhile jsWs = w ++ t.takeWhile jsWs :=
    takeWhile_append_all jsWs w t hwall
  simp only [headerMatchTail]
  rw [hRest, hWs]
  rw [if_neg (fun hx => hwne (List.append_eq_nil.mp (List.isEmpty_iff.mp hx)).1)]
  rw [if_neg (fun hx => hrne (List.isEmpty_iff.mp hx))]
  rw [if_pos (List.all_eq_true.mpr hdot)]

theorem headerMatchTail_case2 (h : Nat) (w t : List Char)
    (hwall : ∀ c ∈ w, jsWs c = true) (hwne : w ≠ []) (htne : t ≠ [])
    (hempty : t.dropWhile jsWs = [])
    (hdot : dotChar (t.getLast htne) = true) :
    headerMatchTail h (w ++ t) = some (h, [t.getLast htne]) := by
  have htw : t.takeWhile jsWs = t := by
    have h2 := List.takeWhile_append_dropWhile jsWs t
    rw [hempty, List.append_nil] at h2
    exact h2
  have hRest : (w ++ t).drop ((w ++ t).takeWhile jsWs).length = [] := by
    rw [dropWhile_eq_drop_length_takeWhile, dropWhile_append_all jsWs w t hwall,
      hempty]
  have hWs : (w ++ t).takeWhile jsWs = w ++ t := by
    rw [takeWhile_append_all jsWs w t hwall, htw]
  have hLast : (w ++ t).getLast? = some (t.getLast htne) := by
    rw [List.getLast?_append, List.getLast?_eq_getLast t htne]
    rfl
  have hlen : 2 ≤ (w ++ t).length := by
    rw [List.length_append]
    have hw1 : 0 < w.length := List.length_pos.mpr hwne
    have ht1 : 0 < t.length := List.length_pos.mpr htne
    omega
  simp only [headerMatchTail]
  rw [hRest, hWs]
  rw [if_neg (fun hx => hwne (List.append_eq_nil.mp (List.isEmpty_iff.mp hx)).1)]
  rw [if_pos (show ([] : List Char).isEmpty = true from rfl)]
  rw [hLast]
  show (if (decide (2 ≤ (w ++ t).length) && dotChar (t.getLast htne)) = true
    then some (h, [t.getLast htne]) else none) = some (h, [t.getLast htne])
  rw [if_pos (by rw [decide_eq_true hlen, hdot]; rfl)]

/-- Backward direction: a line of the claimed shape is matched by the heading
regex at the level given by its hash count. -/
theorem headerMatch_of_spec (line : List Char) (lvl : Nat)
    (h : SpecHeadingLine line lvl) : ∃ cap, headerMatch line = some (lvl, cap) := by
  obtain ⟨w, t, hge, hle, hwall, hwne, htne, htdot, hline⟩ := h
  rw [List.append_assoc] at hline
  obtain ⟨w0, w', rfl⟩ : ∃ w0 w', w = w0 :: w' := by
    cases w with
    | nil => exact absurd rfl hwne
    | cons a b => exact ⟨a, b, rfl⟩
  have hw0 : jsWs w0 = true := hwall w0 (List.mem_cons_self w0 w')
  have hhashes : line.takeWhile (fun c => c == '#') = List.replicate lvl '#' := by
    rw [hline]
    rw [takeWhile_append_all (fun c => c == '#') _ _
      (fun c hc => beq_iff_eq.mpr (List.eq_of_mem_replicate hc))]
    rw [List.cons_append, takeWhile_nil_of_head _ w0 _ (jsWs_ne_hash w0 hw0),
      List.append_nil]
  have hcond : ((line.takeWhile (fun c => c == '#')).length == 0 ||
      decide (3 < (line.takeWhile (fun c => c == '#')).length)) = false := by
    rw [hhashes, List.length_replicate]
    rw [beq_eq_false_iff_ne.mpr (by omega : lvl ≠ 0), decide_eq_false (by omega)]
    rfl
  have hdrop : line.drop (line.takeWhile (fun c => c == '#')).length =
      (w0 :: w') ++ t := by
    rw [hhashes, List.length_replicate, hline]
    exact List.drop_left' (by rw [List.length_replicate])
  simp only [headerMatch]
  rw [hcond]
  simp only [Bool.false_eq_true, if_false]
  rw [hdrop, hhashes, List.length_replicate]
  by_cases hcase : t.dropWhile jsWs = []
  · exact ⟨[t.getLast htne], headerMatchTail_case2 lvl (w0 :: w') t hwall hwne
      htne hcase (htdot (t.getLast htne) (List.getLast_mem htne))⟩
  · refine ⟨t.dropWhile jsWs,
      headerMatchTail_case1 lvl (w0 :: w') t hwall hwne hcase ?_⟩
    intro c hc
    exact htdot c ((List.dropWhile_sublist jsWs).mem hc)

theorem buildToc_levels : ∀ (ls : List (List Char)) (counts : List (String × Nat)),
    (buildToc ls counts).map TocItem.level =
      ls.filterMap (fun l => (headerMatch l).map Prod.fst) := by
  intro ls
  induction ls with
  | nil => intro counts; rfl
  | cons l rest ih =>
    intro counts
    cases hm : headerMatch l with
    | none =>
      simp only [buildToc, hm, List.filterMap_cons, Option.map_none']
      exact ih counts
    | some q =>
      obtain ⟨lvl, cap⟩ := q
      simp only [buildToc, hm, List.filterMap_cons, Option.map_some']
      cases hl : List.lookup (slugify (cleanMarkdown (trimS (String.mk cap)))) counts with
      | some c =>
        simp only [List.map_cons]
        rw [ih]
      | none =>
        simp only [List.map_cons]
        rw [ih]

/-- C9: parseTOC emits a TocItem for a line exactly when the line consists of
1–3 leading `#` characters followed by whitespace and non-empty,
line-terminator-free text, with level equal to the hash count; "#### Four"
produces no entry and "### Three" produces one level-3 entry.  (The original
claim, without the line-terminator proviso on the text, fails on "# A\r".) -/
theorem toc_depth_filter_characterization :
    (∀ (line : List Char) (lvl : Nat),
      (∃ cap, headerMatch line = some (lvl, cap)) ↔ SpecHeadingLine line lvl) ∧
    (∀ text : String, (parseTOC text).map TocItem.level =
      (splitLines text.data).filterMap (fun l => (headerMatch l).map Prod.fst)) ∧
    parseTOC "#### Four" = [] ∧
    (parseTOC "### Three").map (fun i => (i.id, i.title, i.level)) =
      [("three", "Three", 3)] := by
  refine ⟨?_, ?_, by decide, by decide⟩
  · intro line lvl
    constructor
    · rintro ⟨cap, hcap⟩
      exact headerMatch_some line lvl cap hcap
    · exact headerMatch_of_spec line lvl
  · intro text
    exact buildToc_levels (splitLines text.data) []

/-- Witness for toc_depth_filter_characterization: the line "### Three"
satisfies the characterisation at level 3. -/
theorem toc_depth_filter_characterization_witness :
    SpecHeadingLine ("### Three".data) 3 :=
  (toc_depth_filter_characterization.1 ("### Three".data) 3).mp
    ⟨"Three".data, by decide⟩

end MdOpts
